import Mathlib

/-!
Verification of the JSON tree utilities module (`src/index.ts`): the recursive
`JsonValue` model, the deep-equality comparator `equals`, the deep-clone
function `clone`, and the validating guards `isJsonValue` / `isJsonObject` /
`isJsonArray`.

Modelling conventions:
* `JsonValue` is the source type
  `JsonPrimitive | JsonObject | JsonArray | null | undefined` as a closed sum.
  Numbers are modelled as `Int`: the module never computes with numbers, it
  only compares them with `===`, and JSON numbers exclude `NaN`/`Infinity`.
* Objects are finite, insertion-ordered association lists
  `List (String × JsonValue)`; the JavaScript invariant that keys are unique
  is the predicate `wf` and is assumed where a proof needs it.
* JavaScript property access `a[key]` is `lookup`: the first entry with the
  key, or `.undef` when the key is missing (a missing key reads as
  `undefined`, exactly as in JavaScript).
* `===` is `strictEq`: value equality on primitives, `null` and `undefined`;
  `false` on two composites, which models distinct heap references. Identical
  references are covered because the structural path of `equals` is reflexive
  (proved below), so the model agrees with the source on every input.
* The validating guards take `unknown`, so they are defined on `DynValue`,
  which extends the JSON variants with a callable (`func`) member.
-/

namespace JsonTyped

/-- Model of the source type
`JsonValue = JsonPrimitive | JsonObject | JsonArray | null | undefined`
(src/index.ts line 50). `undef` is the absent marker. -/
inductive JsonValue where
  | str (s : String)
  | num (n : Int)
  | bool (b : Bool)
  | null
  | undef
  | arr (elems : List JsonValue)
  | obj (entries : List (String × JsonValue))

/-- Model of the dynamic (`unknown`) values fed to the validating guards:
the JSON variants plus a callable member, which is outside the JSON variant
set. -/
inductive DynValue where
  | str (s : String)
  | num (n : Int)
  | bool (b : Bool)
  | null
  | undef
  | func
  | arr (elems : List DynValue)
  | obj (entries : List (String × DynValue))

/-- JavaScript test `x === undefined` specialised to `JsonValue` operands. -/
def isUndef : JsonValue → Bool
  | .undef => true
  | _ => false

/-- JavaScript `a[key]` on an object: value of the first entry carrying the
key, `undefined` when the key is missing. -/
def lookup (es : List (String × JsonValue)) (k : String) : JsonValue :=
  match es with
  | [] => .undef
  | kv :: rest => if kv.1 == k then kv.2 else lookup rest k

/-- JavaScript `===` on `JsonValue` operands: value equality on primitives,
`null` and `undefined`; `false` on two composites (modelling distinct heap
references — see the header note). -/
def strictEq : JsonValue → JsonValue → Bool
  | .str a, .str b => a == b
  | .num a, .num b => a == b
  | .bool a, .bool b => a == b
  | .null, .null => true
  | .undef, .undef => true
  | _, _ => false

/-- Narrowing guard `isObject` (src/index.ts line 52):
`runtype.isObject(value) && !runtype.isArray(value)` — true exactly on the
object variant. -/
def isObject : JsonValue → Bool
  | .obj _ => true
  | _ => false

/-- Narrowing guard `isArray` (src/index.ts line 56): `runtype.isArray`. -/
def isArray : JsonValue → Bool
  | .arr _ => true
  | _ => false

/-- Narrowing guard `isPrimitive` (src/index.ts line 60):
`isString || isNumber || isBoolean`. -/
def isPrimitive : JsonValue → Bool
  | .str _ => true
  | .num _ => true
  | .bool _ => true
  | _ => false

/-- Source expression `Object.keys(a).filter(key => exactOptionalProperties
|| a[key] !== undefined)` (src/index.ts lines 82-83). -/
def keysFilter (es : List (String × JsonValue)) (e : Bool) : List String :=
  (es.map Prod.fst).filter fun k => e || !(isUndef (lookup es k))

mutual

/-- Model of `equals` (src/index.ts lines 113-124): the `a === b` fast path,
then the array case, then the object case, otherwise `false`. The parameter
`e` is the source's `exactOptionalProperties`. -/
def equals (a b : JsonValue) (e : Bool) : Bool :=
  strictEq a b ||
    match a, b with
    | .arr xs, .arr ys => equalsArray xs ys e
    | .obj ea, .obj eb => equalsObject ea eb e
    | _, _ => false
termination_by 2 * (sizeOf a + sizeOf b) + 1
decreasing_by
  all_goals simp_wf
  all_goals omega

/-- Model of `equalsArray` (src/index.ts lines 96-101): unequal lengths give
`false`; otherwise every index-wise pair is compared with `equals` under the
same mode. -/
def equalsArray (xs ys : List JsonValue) (e : Bool) : Bool :=
  (xs.length == ys.length) && equalsElems xs ys e
termination_by 2 * (sizeOf xs + sizeOf ys) + 2
decreasing_by
  all_goals simp_wf

/-- Pointwise part of `equalsArray`: the source's
`a.every((value, index) => equals(value, b[index], exactOptionalProperties))`,
run under the length check (the ragged cases are unreachable there). -/
def equalsElems (xs ys : List JsonValue) (e : Bool) : Bool :=
  match xs, ys with
  | [], _ => true
  | _ :: _, [] => false
  | x :: xs', y :: ys' => equals x y e && equalsElems xs' ys' e
termination_by 2 * (sizeOf xs + sizeOf ys) + 1
decreasing_by
  all_goals simp_wf
  all_goals omega

/-- Model of `equalsObject` (src/index.ts lines 81-94): filtered key lists of
both sides, a length check, then `keysA.every(key => valueA === valueB ||
(valueA !== undefined && valueB !== undefined && equals(valueA, valueB)))`.
The nested `equals` call in the source omits the mode argument, so it runs
with the default `false`; the model reproduces that. -/
def equalsObject (ea eb : List (String × JsonValue)) (e : Bool) : Bool :=
  ((keysFilter ea e).length == (keysFilter eb e).length) &&
    (keysFilter ea e).all fun k =>
      strictEq (lookup ea k) (lookup eb k) ||
        (!(isUndef (lookup ea k)) && !(isUndef (lookup eb k)) &&
          equals (lookup ea k) (lookup eb k) false)
termination_by 2 * (sizeOf ea + sizeOf eb) + 2
decreasing_by
  all_goals simp_wf
  all_goals
    (have hle : ∀ (es : List (String × JsonValue)) (j : String),
        sizeOf (lookup es j) ≤ sizeOf es := by
      intro es j
      induction es with
      | nil => simp [lookup]
      | cons kv rest ih =>
        simp only [lookup]
        split
        · obtain ⟨a, b⟩ := kv
          simp only [List.cons.sizeOf_spec, Prod.mk.sizeOf_spec]
          omega
        · simp only [List.cons.sizeOf_spec]
          omega
     have h1 := hle ea k
     have h2 := hle eb k
     omega)

end

mutual

/-- Model of `clone` (src/index.ts lines 133-145): arrays are rebuilt by
mapping `clone` over the elements, objects by `cloneEntries`, anything else
is returned unchanged. On values of this model the source's validating
guards `isJsonArray` / `isJsonObject` coincide with the variant tests
(proved below as `isJsonValue_toDyn`). The parameter `e` is the source's
`exactOptionalProperties`. -/
def clone (v : JsonValue) (e : Bool) : JsonValue :=
  match v with
  | .arr xs => .arr (cloneList xs e)
  | .obj es => .obj (cloneEntries es e)
  | v' => v'
termination_by sizeOf v

/-- The source's `value.map(v => clone(v, exactOptionalProperties))`. -/
def cloneList (l : List JsonValue) (e : Bool) : List JsonValue :=
  match l with
  | [] => []
  | x :: xs => clone x e :: cloneList xs e
termination_by sizeOf l

/-- The source's
`Object.entries(value).filter(([k, v]) => exactOptionalProperties ||
v !== undefined).map(([k, v]) => v !== undefined ? [k, clone(v, e)] : [k, v])`
with filter and map fused into one pass (`cloneEntries_eq` below recovers
the literal filter-then-map form). -/
def cloneEntries (es : List (String × JsonValue)) (e : Bool) :
    List (String × JsonValue) :=
  match es with
  | [] => []
  | kv :: rest =>
    if e || !(isUndef kv.2) then
      (if !(isUndef kv.2) then (kv.1, clone kv.2 e) else kv) :: cloneEntries rest e
    else cloneEntries rest e
termination_by sizeOf es
decreasing_by
  all_goals simp_wf
  all_goals first
    | omega
    | (obtain ⟨a, b⟩ := kv; simp only [Prod.mk.sizeOf_spec]; omega)

end

/-! Narrowing runtime-shape guards from the `is-runtype` collaborator, on
dynamic (`unknown`) values. `rtIsObject` models `typeof v === 'object' &&
v !== null`, which in JavaScript is true for plain objects and for arrays. -/

/-- Model of `runtype.isString` on dynamic values. -/
def rtIsString : DynValue → Bool
  | .str _ => true
  | _ => false

/-- Model of `runtype.isNumber` on dynamic values. -/
def rtIsNumber : DynValue → Bool
  | .num _ => true
  | _ => false

/-- Model of `runtype.isBoolean` on dynamic values. -/
def rtIsBoolean : DynValue → Bool
  | .bool _ => true
  | _ => false

/-- Model of `runtype.isArray` on dynamic values. -/
def rtIsArray : DynValue → Bool
  | .arr _ => true
  | _ => false

/-- Model of `runtype.isObject` on dynamic values: true on plain objects and
arrays (`typeof` gives `'object'` for both), false on `null`, `undefined`,
primitives and callables. -/
def rtIsObject : DynValue → Bool
  | .obj _ => true
  | .arr _ => true
  | _ => false

/-- Model of `runtype.isFunction` on dynamic values. -/
def rtIsFunction : DynValue → Bool
  | .func => true
  | _ => false

/-- JavaScript test `value === undefined` on dynamic values. -/
def rtIsUndefined : DynValue → Bool
  | .undef => true
  | _ => false

/-- JavaScript test `value === null` on dynamic values. -/
def rtIsNull : DynValue → Bool
  | .null => true
  | _ => false

/-- Model of `isJsonPrimitive` (src/index.ts lines 76-78):
`runtype.isString(value) || runtype.isNumber(value) ||
runtype.isBoolean(value)`. -/
def isJsonPrimitive (v : DynValue) : Bool :=
  rtIsString v || rtIsNumber v || rtIsBoolean v

mutual

/-- Model of the validating guard `isJsonValue` (src/index.ts lines 64-66):
`value === undefined || value === null || isJsonPrimitive(value) ||
isJsonObject(value) || isJsonArray(value)`. -/
def isJsonValue (v : DynValue) : Bool :=
  rtIsUndefined v || rtIsNull v || isJsonPrimitive v ||
    isJsonObject v || isJsonArray v
termination_by 2 * sizeOf v + 1
decreasing_by
  all_goals simp_wf

/-- Model of the validating guard `isJsonObject` (src/index.ts lines 68-70):
`runtype.isObject(value) && !runtype.isArray(value) &&
!runtype.isFunction(value) && Object.values(value).every(isJsonValue)`.
The three shape guards jointly hold exactly on the `obj` variant, so the
model matches on it directly; `everyValueIsJsonValue` is the
`Object.values(value).every(isJsonValue)` pass. -/
def isJsonObject (v : DynValue) : Bool :=
  match v with
  | .obj es => everyValueIsJsonValue es
  | _ => false
termination_by 2 * sizeOf v
decreasing_by
  all_goals simp_wf

/-- Model of the validating guard `isJsonArray` (src/index.ts lines 72-74):
`runtype.isArray(value) && value.every(isJsonValue)`. -/
def isJsonArray (v : DynValue) : Bool :=
  match v with
  | .arr xs => everyIsJsonValue xs
  | _ => false
termination_by 2 * sizeOf v
decreasing_by
  all_goals simp_wf

/-- The source's `value.every(isJsonValue)` over array elements. -/
def everyIsJsonValue (l : List DynValue) : Bool :=
  match l with
  | [] => true
  | x :: xs => isJsonValue x && everyIsJsonValue xs
termination_by 2 * sizeOf l
decreasing_by
  all_goals simp_wf
  all_goals omega

/-- The source's `Object.values(value).every(isJsonValue)` over object
entries. -/
def everyValueIsJsonValue (es : List (String × DynValue)) : Bool :=
  match es with
  | [] => true
  | kv :: rest => isJsonValue kv.2 && everyValueIsJsonValue rest
termination_by 2 * sizeOf es
decreasing_by
  all_goals simp_wf
  all_goals first
    | omega
    | (obtain ⟨a, b⟩ := kv; simp only [Prod.mk.sizeOf_spec]; omega)

end

mutual

/-- Test, written for this verification, that a dynamic value contains — at
any depth — a member outside the JSON variant set, namely a callable. -/
def containsFunc : DynValue → Bool
  | .func => true
  | .arr xs => listContainsFunc xs
  | .obj es => entriesContainsFunc es
  | _ => false

/-- A callable occurs somewhere in a list of dynamic values. -/
def listContainsFunc : List DynValue → Bool
  | [] => false
  | x :: xs => containsFunc x || listContainsFunc xs

/-- A callable occurs somewhere among the values of an entry list. -/
def entriesContainsFunc : List (String × DynValue) → Bool
  | [] => false
  | kv :: rest => containsFunc kv.2 || entriesContainsFunc rest

end

/-- Key list without duplicates, the JavaScript object invariant. -/
def distinctKeys : List String → Bool
  | [] => true
  | k :: ks => !(ks.contains k) && distinctKeys ks

mutual

/-- Well-formedness of a `JsonValue` tree as produced by the JavaScript
runtime: every object carries pairwise-distinct keys. -/
def wf : JsonValue → Bool
  | .arr xs => wfList xs
  | .obj es => distinctKeys (es.map Prod.fst) && wfEntries es
  | _ => true

/-- Well-formedness of every element of a list. -/
def wfList : List JsonValue → Bool
  | [] => true
  | x :: xs => wf x && wfList xs

/-- Well-formedness of every value of an entry list. -/
def wfEntries : List (String × JsonValue) → Bool
  | [] => true
  | kv :: rest => wf kv.2 && wfEntries rest

end

mutual

/-- Injection of the typed model into the dynamic one: a `JsonValue` seen as
the `unknown` value handed to a validating guard. -/
def toDyn : JsonValue → DynValue
  | .str s => .str s
  | .num n => .num n
  | .bool b => .bool b
  | .null => .null
  | .undef => .undef
  | .arr xs => .arr (toDynList xs)
  | .obj es => .obj (toDynEntries es)

/-- Elementwise injection of a list. -/
def toDynList : List JsonValue → List DynValue
  | [] => []
  | x :: xs => toDyn x :: toDynList xs

/-- Valuewise injection of an entry list. -/
def toDynEntries : List (String × JsonValue) → List (String × DynValue)
  | [] => []
  | kv :: rest => (kv.1, toDyn kv.2) :: toDynEntries rest

end

/-! Basic facts about the helper operations. -/

theorem isUndef_iff {v : JsonValue} : isUndef v = true ↔ v = .undef := by
  cases v <;> simp [isUndef]

theorem eq_of_strictEq {a b : JsonValue} (h : strictEq a b = true) : a = b := by
  cases a <;> cases b <;> simp_all [strictEq]

theorem strictEq_symm (a b : JsonValue) : strictEq a b = strictEq b a := by
  cases a <;> cases b <;> simp [strictEq, BEq.comm]

theorem strictEq_self_of_not_composite {a : JsonValue}
    (h1 : isArray a = false) (h2 : isObject a = false) : strictEq a a = true := by
  cases a <;> simp_all [strictEq, isArray, isObject]

theorem lookup_mem_or_undef (es : List (String × JsonValue)) (k : String) :
    lookup es k = .undef ∨ (k, lookup es k) ∈ es := by
  induction es with
  | nil => simp [lookup]
  | cons kv rest ih =>
    rw [lookup]
    split
    · right
      rename_i hbeq
      have hk : kv.1 = k := by simpa using hbeq
      obtain ⟨a, b⟩ := kv
      cases hk
      exact List.mem_cons_self _ _
    · rcases ih with h | h
      · exact Or.inl h
      · exact Or.inr (List.mem_cons_of_mem _ h)

theorem lookup_mem_of_key {es : List (String × JsonValue)} {k : String}
    (h : k ∈ es.map Prod.fst) : (k, lookup es k) ∈ es := by
  induction es with
  | nil => simp at h
  | cons kv rest ih =>
    rw [lookup]
    split
    · rename_i hbeq
      have hk : kv.1 = k := by simpa using hbeq
      obtain ⟨a, b⟩ := kv
      cases hk
      exact List.mem_cons_self _ _
    · rename_i hbeq
      have hne : kv.1 ≠ k := by simpa using hbeq
      simp only [List.map_cons, List.mem_cons] at h
      rcases h with h | h
      · exact absurd h.symm hne
      · exact List.mem_cons_of_mem _ (ih h)

theorem mem_keys_of_lookup_ne_undef {es : List (String × JsonValue)} {k : String}
    (h : ¬ lookup es k = .undef) : k ∈ es.map Prod.fst := by
  rcases lookup_mem_or_undef es k with h' | h'
  · exact absurd h' h
  · exact List.mem_map.mpr ⟨(k, lookup es k), h', rfl⟩

theorem sizeOf_lookup_lt {es : List (String × JsonValue)} {k : String}
    (h : k ∈ es.map Prod.fst) : sizeOf (lookup es k) < sizeOf (JsonValue.obj es) := by
  have hm := lookup_mem_of_key h
  have h1 := List.sizeOf_lt_of_mem hm
  simp only [Prod.mk.sizeOf_spec] at h1
  simp only [JsonValue.obj.sizeOf_spec]
  omega

theorem mem_keysFilter {es : List (String × JsonValue)} {e : Bool} {k : String} :
    k ∈ keysFilter es e ↔
      k ∈ es.map Prod.fst ∧ (e || !(isUndef (lookup es k))) = true := by
  simp [keysFilter, List.mem_filter]

theorem keysFilter_true (es : List (String × JsonValue)) :
    keysFilter es true = es.map Prod.fst := by
  simp [keysFilter]

theorem distinctKeys_iff {ks : List String} : distinctKeys ks = true ↔ ks.Nodup := by
  induction ks with
  | nil => simp [distinctKeys]
  | cons k rest ih =>
    simp [distinctKeys, ih, List.contains_iff_exists_mem_beq]

/-! Access lemmas for `wf`. -/

theorem wfList_iff {xs : List JsonValue} :
    wfList xs = true ↔ ∀ x ∈ xs, wf x = true := by
  induction xs with
  | nil => simp [wfList]
  | cons x rest ih => simp [wfList, ih]

theorem wfEntries_iff {es : List (String × JsonValue)} :
    wfEntries es = true ↔ ∀ kv ∈ es, wf kv.2 = true := by
  induction es with
  | nil => simp [wfEntries]
  | cons kv rest ih => simp [wfEntries, ih]

theorem wf_arr_iff {xs : List JsonValue} :
    wf (.arr xs) = true ↔ ∀ x ∈ xs, wf x = true := by
  rw [wf]
  exact wfList_iff

theorem wf_obj_iff {es : List (String × JsonValue)} :
    wf (.obj es) = true ↔
      (es.map Prod.fst).Nodup ∧ ∀ kv ∈ es, wf kv.2 = true := by
  rw [wf]
  simp [distinctKeys_iff, wfEntries_iff]

theorem wf_lookup {es : List (String × JsonValue)} {k : String}
    (h : wf (.obj es) = true) : wf (lookup es k) = true := by
  rcases lookup_mem_or_undef es k with h' | h'
  · rw [h']
    simp [wf]
  · exact (wf_obj_iff.mp h).2 _ h'

/-! Step lemmas for the recursive functions. -/

theorem equals_arr_arr (xs ys : List JsonValue) (e : Bool) :
    equals (.arr xs) (.arr ys) e = equalsArray xs ys e := by
  simp only [equals, strictEq, Bool.false_or]

theorem equals_obj_obj (ea eb : List (String × JsonValue)) (e : Bool) :
    equals (.obj ea) (.obj eb) e = equalsObject ea eb e := by
  simp only [equals, strictEq, Bool.false_or]

theorem clone_arr (xs : List JsonValue) (e : Bool) :
    clone (.arr xs) e = .arr (cloneList xs e) := by
  simp [clone]

theorem clone_obj (es : List (String × JsonValue)) (e : Bool) :
    clone (.obj es) e = .obj (cloneEntries es e) := by
  simp [clone]

theorem clone_not_composite {v : JsonValue} (e : Bool)
    (h1 : isArray v = false) (h2 : isObject v = false) : clone v e = v := by
  cases v <;> simp_all [clone, isArray, isObject]

theorem isUndef_clone (v : JsonValue) (e : Bool) :
    isUndef (clone v e) = isUndef v := by
  cases v <;> simp [clone, isUndef]

theorem cloneList_eq_map (l : List JsonValue) (e : Bool) :
    cloneList l e = l.map fun v => clone v e := by
  induction l with
  | nil => simp [cloneList]
  | cons x xs ih => simp [cloneList, ih]

theorem cloneList_length (l : List JsonValue) (e : Bool) :
    (cloneList l e).length = l.length := by
  simp [cloneList_eq_map]

theorem cloneEntries_eq (es : List (String × JsonValue)) (e : Bool) :
    cloneEntries es e =
      (es.filter fun kv => e || !(isUndef kv.2)).map
        fun kv => if !(isUndef kv.2) then (kv.1, clone kv.2 e) else kv := by
  induction es with
  | nil => simp [cloneEntries]
  | cons kv rest ih =>
    rw [cloneEntries, List.filter_cons]
    by_cases h : (e || !(isUndef kv.2)) = true
    · simp [h, ih]
    · have h' : (e || !(isUndef kv.2)) = false := by
        cases hx : (e || !(isUndef kv.2))
        · rfl
        · exact absurd hx h
      simp [h', ih]

theorem lookup_eq_undef_of_not_mem {es : List (String × JsonValue)} {k : String}
    (h : k ∉ es.map Prod.fst) : lookup es k = .undef := by
  by_contra hne
  exact h (mem_keys_of_lookup_ne_undef hne)

theorem lookup_cloneEntries {es : List (String × JsonValue)} {k : String} {e : Bool}
    (hnd : (es.map Prod.fst).Nodup) :
    lookup (cloneEntries es e) k =
      if isUndef (lookup es k) = true then .undef else clone (lookup es k) e := by
  induction es with
  | nil => simp [cloneEntries, lookup, isUndef]
  | cons kv rest ih =>
    obtain ⟨a, b⟩ := kv
    simp only [List.map_cons, List.nodup_cons] at hnd
    obtain ⟨hna, hnr⟩ := hnd
    have ihr := ih hnr
    rw [cloneEntries]
    by_cases hcond : (e || !(isUndef (a, b).2)) = true
    · rw [if_pos hcond]
      by_cases hak : a = k
      · subst hak
        by_cases hub : isUndef b = true
        · have hb : b = .undef := isUndef_iff.mp hub
          subst hb
          simp [lookup, isUndef]
        · simp [lookup, hub, isUndef_clone, clone]
      · have hbeq : (a == k) = false := beq_eq_false_iff_ne.mpr hak
        by_cases hub : isUndef b = true
        · simp [lookup, hbeq, ihr, hub]
        · simp [lookup, hbeq, ihr, hub]
    · rw [if_neg hcond]
      have hparts : e = false ∧ isUndef b = true := by
        simp only [Bool.or_eq_true, Bool.not_eq_eq_eq_not, Bool.not_true] at hcond
        constructor
        · cases e
          · rfl
          · exact absurd (Or.inl rfl) hcond
        · cases hu : isUndef b
          · exact absurd (Or.inr (by simp [hu])) hcond
          · rfl
      obtain ⟨he, hub⟩ := hparts
      have hb : b = .undef := isUndef_iff.mp hub
      subst hb
      subst he
      by_cases hak : a = k
      · subst hak
        have hrk : lookup rest a = .undef := lookup_eq_undef_of_not_mem hna
        simp [lookup, ihr, hrk, isUndef]
      · have hbeq : (a == k) = false := beq_eq_false_iff_ne.mpr hak
        simp [lookup, hbeq, ihr]

theorem keysFilter_cons {a : String} {b : JsonValue}
    {rest : List (String × JsonValue)} {m : Bool}
    (hna : a ∉ rest.map Prod.fst) :
    keysFilter ((a, b) :: rest) m =
      (if (m || !(isUndef b)) = true then [a] else []) ++ keysFilter rest m := by
  have hstep : ∀ x ∈ rest.map Prod.fst,
      (m || !(isUndef (lookup ((a, b) :: rest) x))) =
        (m || !(isUndef (lookup rest x))) := by
    intro x hx
    have hax : (a == x) = false := beq_eq_false_iff_ne.mpr (fun h => hna (h ▸ hx))
    simp [lookup, hax]
  have hla : lookup ((a, b) :: rest) a = b := by simp [lookup]
  simp only [keysFilter, List.map_cons, List.filter_cons]
  rw [List.filter_congr hstep]
  simp only [hla]
  split <;> simp

theorem mem_map_fst_cloneEntries {es : List (String × JsonValue)} {e : Bool}
    {x : String} (h : x ∈ (cloneEntries es e).map Prod.fst) :
    x ∈ es.map Prod.fst := by
  rw [cloneEntries_eq] at h
  simp only [List.map_map, List.mem_map, List.mem_filter] at h
  obtain ⟨kv, ⟨hkv, _⟩, hfst⟩ := h
  refine List.mem_map.mpr ⟨kv, hkv, ?_⟩
  by_cases hu : isUndef kv.2 = true <;> simp_all

theorem keysFilter_cloneEntries {es : List (String × JsonValue)} {e m : Bool}
    (hnd : (es.map Prod.fst).Nodup) (hm : m = e ∨ m = false) :
    keysFilter (cloneEntries es e) m = keysFilter es m := by
  induction es with
  | nil => simp [cloneEntries]
  | cons kv rest ih =>
    obtain ⟨a, b⟩ := kv
    simp only [List.map_cons, List.nodup_cons] at hnd
    obtain ⟨hna, hnr⟩ := hnd
    have ihr := ih hnr
    have hnac : a ∉ (cloneEntries rest e).map Prod.fst :=
      fun hmem => hna (mem_map_fst_cloneEntries hmem)
    rw [cloneEntries]
    by_cases hcond : (e || !(isUndef (a, b).2)) = true
    · rw [if_pos hcond]
      by_cases hub : isUndef b = true
      · have hb : b = .undef := isUndef_iff.mp hub
        subst hb
        simp only [isUndef, Bool.not_true, Bool.false_eq_true, if_false]
        rw [keysFilter_cons hnac, keysFilter_cons hna, ihr]
      · rw [if_pos (by simpa using hub)]
        rw [keysFilter_cons hnac, keysFilter_cons hna, ihr]
        simp [isUndef_clone, hub]
    · rw [if_neg hcond]
      have hparts : e = false ∧ isUndef b = true := by
        simp only at hcond
        constructor
        · cases e
          · rfl
          · exact absurd (by simp) hcond
        · cases hu : isUndef b
          · exact absurd (by simp [hu]) hcond
          · rfl
      obtain ⟨he, hub⟩ := hparts
      subst he
      have hm' : m = false := by
        rcases hm with h | h <;> exact h
      subst hm'
      rw [keysFilter_cons hna, ihr]
      simp [hub]

theorem equalsElems_pointwise {xs ys : List JsonValue} {m : Bool}
    (hlen : xs.length = ys.length)
    (h : ∀ i (hx : i < xs.length) (hy : i < ys.length),
      equals (xs.get ⟨i, hx⟩) (ys.get ⟨i, hy⟩) m = true) :
    equalsElems xs ys m = true := by
  induction xs generalizing ys with
  | nil =>
    cases ys with
    | nil => rw [equalsElems]
    | cons y ys' => simp at hlen
  | cons x rest ih =>
    cases ys with
    | nil => simp at hlen
    | cons y ys' =>
      rw [equalsElems]
      simp only [Bool.and_eq_true]
      constructor
      · exact h 0 (by simp) (by simp)
      · exact ih (by simpa using hlen)
          (fun i hx hy => h (i + 1) (by simpa using hx) (by simpa using hy))

theorem equalsElems_to_pointwise {xs ys : List JsonValue} {m : Bool}
    (h : equalsElems xs ys m = true) :
    ∀ i (hx : i < xs.length) (hy : i < ys.length),
      equals (xs.get ⟨i, hx⟩) (ys.get ⟨i, hy⟩) m = true := by
  induction xs generalizing ys with
  | nil => intro i hx; simp at hx
  | cons x rest ih =>
    cases ys with
    | nil =>
      rw [equalsElems] at h
      simp at h
    | cons y ys' =>
      rw [equalsElems] at h
      simp only [Bool.and_eq_true] at h
      intro i hx hy
      match i with
      | 0 => exact h.1
      | i' + 1 => exact ih h.2 i' (by simpa using hx) (by simpa using hy)

theorem equals_clone_of_wf : ∀ (n : Nat) (v : JsonValue) (e m : Bool), sizeOf v ≤ n →
    wf v = true → (m = e ∨ m = false) → equals v (clone v e) m = true := by
  intro n
  induction n with
  | zero =>
    intro v e m hsize
    exact absurd hsize (by cases v <;> simp)
  | succ n ih =>
    intro v e m hsize hwf hm
    match v with
    | .str s => simp [clone, equals, strictEq]
    | .num x => simp [clone, equals, strictEq]
    | .bool b => simp [clone, equals, strictEq]
    | .null => simp [clone, equals, strictEq]
    | .undef => simp [clone, equals, strictEq]
    | .arr xs =>
      rw [clone_arr, equals_arr_arr, equalsArray]
      simp only [Bool.and_eq_true, beq_iff_eq]
      refine ⟨(cloneList_length xs e).symm, ?_⟩
      refine equalsElems_pointwise (by simp [cloneList_length]) ?_
      intro i hx hy
      have h1 : (cloneList xs e).get? i = some ((cloneList xs e).get ⟨i, hy⟩) :=
        List.get?_eq_get hy
      have h2 : (cloneList xs e).get? i = some (clone (xs.get ⟨i, hx⟩) e) := by
        rw [cloneList_eq_map, List.get?_map, List.get?_eq_get hx]
        rfl
      have h3 : (cloneList xs e).get ⟨i, hy⟩ = clone (xs.get ⟨i, hx⟩) e :=
        Option.some.inj (h1.symm.trans h2)
      rw [h3]
      have hmem : xs.get ⟨i, hx⟩ ∈ xs := xs.get_mem i hx
      refine ih _ e m ?_ ?_ hm
      · have h1 := List.sizeOf_lt_of_mem hmem
        have h2 : sizeOf (JsonValue.arr xs) = 1 + sizeOf xs := by simp
        omega
      · exact wf_arr_iff.mp hwf _ hmem
    | .obj es =>
      rw [clone_obj, equals_obj_obj, equalsObject]
      have hnd : (es.map Prod.fst).Nodup := (wf_obj_iff.mp hwf).1
      rw [keysFilter_cloneEntries hnd hm]
      simp only [Bool.and_eq_true, beq_iff_eq, true_and, List.all_eq_true]
      intro k hk
      have hkm : k ∈ es.map Prod.fst := (mem_keysFilter.mp hk).1
      rw [lookup_cloneEntries hnd]
      by_cases hu : isUndef (lookup es k) = true
      · have hv : lookup es k = .undef := isUndef_iff.mp hu
        rw [if_pos hu, hv]
        simp [strictEq]
      · rw [if_neg hu]
        have hbody : equals (lookup es k) (clone (lookup es k) e) false = true := by
          refine ih _ e false ?_ (wf_lookup hwf) (Or.inr rfl)
          have h1 := sizeOf_lookup_lt hkm
          have h2 : sizeOf (JsonValue.obj es) = 1 + sizeOf es := by simp
          omega
        simp [hu, isUndef_clone, hbody]

theorem equals_refl_aux : ∀ (n : Nat) (a : JsonValue) (e : Bool), sizeOf a ≤ n →
    equals a a e = true := by
  intro n
  induction n with
  | zero =>
    intro a e hsize
    exact absurd hsize (by cases a <;> simp)
  | succ n ih =>
    intro a e hsize
    match a with
    | .str s => simp [equals, strictEq]
    | .num x => simp [equals, strictEq]
    | .bool b => simp [equals, strictEq]
    | .null => simp [equals, strictEq]
    | .undef => simp [equals, strictEq]
    | .arr xs =>
      rw [equals_arr_arr, equalsArray]
      simp only [Bool.and_eq_true, beq_iff_eq]
      refine ⟨trivial, ?_⟩
      refine equalsElems_pointwise rfl ?_
      intro i hx hy
      have hmem : xs.get ⟨i, hx⟩ ∈ xs := xs.get_mem i hx
      have h1 := List.sizeOf_lt_of_mem hmem
      have h2 : sizeOf (JsonValue.arr xs) = 1 + sizeOf xs := by simp
      exact ih _ e (by omega)
    | .obj es =>
      rw [equals_obj_obj, equalsObject]
      simp only [Bool.and_eq_true, beq_iff_eq, true_and, List.all_eq_true]
      intro k hk
      have hkm : k ∈ es.map Prod.fst := (mem_keysFilter.mp hk).1
      by_cases hu : isUndef (lookup es k) = true
      · rw [isUndef_iff.mp hu]
        simp [strictEq]
      · have h1 := sizeOf_lookup_lt hkm
        have h2 : sizeOf (JsonValue.obj es) = 1 + sizeOf es := by simp
        have hrec := ih (lookup es k) false (by omega)
        simp [hu, hrec]

theorem equals_self (a : JsonValue) (e : Bool) : equals a a e = true :=
  equals_refl_aux (sizeOf a) a e le_rfl

theorem nodup_keysFilter {es : List (String × JsonValue)} {e : Bool}
    (hnd : (es.map Prod.fst).Nodup) : (keysFilter es e).Nodup :=
  hnd.filter _

theorem equals_inv {a b : JsonValue} {e : Bool} (h : equals a b e = true) :
    strictEq a b = true ∨
    (∃ xs ys, a = .arr xs ∧ b = .arr ys ∧ equalsArray xs ys e = true) ∨
    (∃ ea eb, a = .obj ea ∧ b = .obj eb ∧ equalsObject ea eb e = true) := by
  by_cases hse : strictEq a b = true
  · exact Or.inl hse
  · cases a <;> cases b <;> simp_all [equals, strictEq]

theorem equals_flip_default : ∀ (n : Nat) (a b : JsonValue),
    sizeOf a + sizeOf b ≤ n → wf a = true → wf b = true →
    equals a b false = true → equals b a false = true := by
  intro n
  induction n with
  | zero =>
    intro a b hsum
    have : 0 < sizeOf a := by cases a <;> simp
    omega
  | succ n ih =>
    intro a b hsum ha hb heq
    rcases equals_inv heq with hse | ⟨xs, ys, rfl, rfl, hA⟩ | ⟨ea, eb, rfl, rfl, hO⟩
    · rw [eq_of_strictEq hse]
      exact equals_self _ _
    · rw [equalsArray] at hA
      simp only [Bool.and_eq_true, beq_iff_eq] at hA
      obtain ⟨hlen, helems⟩ := hA
      have hpt := equalsElems_to_pointwise helems
      rw [equals_arr_arr, equalsArray]
      simp only [Bool.and_eq_true, beq_iff_eq]
      refine ⟨hlen.symm, ?_⟩
      refine equalsElems_pointwise hlen.symm ?_
      intro i hx hy
      have hmx : xs.get ⟨i, hy⟩ ∈ xs := xs.get_mem i hy
      have hmy : ys.get ⟨i, hx⟩ ∈ ys := ys.get_mem i hx
      have s1 := List.sizeOf_lt_of_mem hmx
      have s2 := List.sizeOf_lt_of_mem hmy
      have e1 : sizeOf (JsonValue.arr xs) = 1 + sizeOf xs := by simp
      have e2 : sizeOf (JsonValue.arr ys) = 1 + sizeOf ys := by simp
      exact ih _ _ (by omega) (wf_arr_iff.mp ha _ hmx) (wf_arr_iff.mp hb _ hmy)
        (hpt i hy hx)
    · rw [equalsObject] at hO
      simp only [Bool.and_eq_true, beq_iff_eq, List.all_eq_true] at hO
      obtain ⟨hlen, hall⟩ := hO
      have hndA : (ea.map Prod.fst).Nodup := (wf_obj_iff.mp ha).1
      have hndB : (eb.map Prod.fst).Nodup := (wf_obj_iff.mp hb).1
      have hbody : ∀ k ∈ keysFilter ea false,
          isUndef (lookup ea k) = false ∧ isUndef (lookup eb k) = false ∧
            equals (lookup eb k) (lookup ea k) false = true := by
        intro k hk
        obtain ⟨hkm, hcond⟩ := mem_keysFilter.mp hk
        have hua : isUndef (lookup ea k) = false := by
          simpa using hcond
        have h := hall k hk
        simp only [Bool.or_eq_true, Bool.and_eq_true] at h
        rcases h with h | ⟨⟨_, hub⟩, heq2⟩
        · have hv := eq_of_strictEq h
          have hub : isUndef (lookup eb k) = false := by rw [← hv]; exact hua
          refine ⟨hua, hub, ?_⟩
          rw [hv]
          exact equals_self _ _
        · have hub2 : isUndef (lookup eb k) = false := by simpa using hub
          have hkb : k ∈ eb.map Prod.fst := by
            apply mem_keys_of_lookup_ne_undef
            intro hcontra
            rw [hcontra] at hub2
            simp [isUndef] at hub2
          have s1 := sizeOf_lookup_lt hkm
          have s2 := sizeOf_lookup_lt hkb
          refine ⟨hua, hub2, ?_⟩
          exact ih _ _ (by omega) (wf_lookup ha) (wf_lookup hb) heq2
      have hsub : keysFilter ea false ⊆ keysFilter eb false := by
        intro k hk
        obtain ⟨_, hub, _⟩ := hbody k hk
        have hkb : k ∈ eb.map Prod.fst := by
          apply mem_keys_of_lookup_ne_undef
          intro hcontra
          rw [hcontra] at hub
          simp [isUndef] at hub
        exact mem_keysFilter.mpr ⟨hkb, by simp [hub]⟩
      have hperm : List.Perm (keysFilter ea false) (keysFilter eb false) := by
        refine List.Subperm.perm_of_length_le ?_ (le_of_eq hlen.symm)
        exact List.subperm_of_subset (nodup_keysFilter hndA) hsub
      rw [equals_obj_obj, equalsObject]
      simp only [Bool.and_eq_true, beq_iff_eq, List.all_eq_true]
      refine ⟨hlen.symm, ?_⟩
      intro k hk
      have hkA : k ∈ keysFilter ea false := hperm.mem_iff.mpr hk
      obtain ⟨hua, hub, hflip⟩ := hbody k hkA
      simp [hua, hub, hflip]

theorem equals_symm_default (a b : JsonValue)
    (ha : wf a = true) (hb : wf b = true) :
    equals a b false = equals b a false := by
  cases h1 : equals a b false with
  | true => exact (equals_flip_default (sizeOf a + sizeOf b) a b le_rfl ha hb h1).symm
  | false =>
    cases h2 : equals b a false with
    | false => rfl
    | true =>
      have h3 := equals_flip_default (sizeOf b + sizeOf a) b a le_rfl hb ha h2
      rw [h1] at h3
      exact h3

/-! Facts about the validating guards on dynamic values. -/

theorem everyIsJsonValue_iff {l : List DynValue} :
    everyIsJsonValue l = true ↔ ∀ x ∈ l, isJsonValue x = true := by
  induction l with
  | nil =>
    rw [everyIsJsonValue]
    simp
  | cons x xs ih =>
    rw [everyIsJsonValue]
    simp [ih]

theorem everyValueIsJsonValue_iff {es : List (String × DynValue)} :
    everyValueIsJsonValue es = true ↔ ∀ kv ∈ es, isJsonValue kv.2 = true := by
  induction es with
  | nil =>
    rw [everyValueIsJsonValue]
    simp
  | cons kv rest ih =>
    rw [everyValueIsJsonValue]
    simp [ih]

theorem listContainsFunc_iff {l : List DynValue} :
    listContainsFunc l = true ↔ ∃ x ∈ l, containsFunc x = true := by
  induction l with
  | nil => simp [listContainsFunc]
  | cons x xs ih => simp [listContainsFunc, ih]

theorem entriesContainsFunc_iff {es : List (String × DynValue)} :
    entriesContainsFunc es = true ↔ ∃ kv ∈ es, containsFunc kv.2 = true := by
  induction es with
  | nil => simp [entriesContainsFunc]
  | cons kv rest ih => simp [entriesContainsFunc, ih]

theorem isJsonValue_false_of_containsFunc :
    ∀ (n : Nat) (v : DynValue), sizeOf v ≤ n →
      containsFunc v = true → isJsonValue v = false := by
  intro n
  induction n with
  | zero =>
    intro v hs
    exact absurd hs (by cases v <;> simp)
  | succ n ih =>
    intro v hs hcf
    match v with
    | .str s => simp [containsFunc] at hcf
    | .num x => simp [containsFunc] at hcf
    | .bool b => simp [containsFunc] at hcf
    | .null => simp [containsFunc] at hcf
    | .undef => simp [containsFunc] at hcf
    | .func =>
      rw [isJsonValue]
      simp [rtIsUndefined, rtIsNull, isJsonPrimitive, rtIsString, rtIsNumber,
        rtIsBoolean, isJsonObject, isJsonArray]
    | .arr xs =>
      rw [containsFunc] at hcf
      obtain ⟨x, hx, hcx⟩ := listContainsFunc_iff.mp hcf
      have hb1 := List.sizeOf_lt_of_mem hx
      have hb2 : sizeOf (DynValue.arr xs) = 1 + sizeOf xs := by simp
      have hfalse : isJsonValue x = false := ih x (by omega) hcx
      have h1 : isJsonArray (.arr xs) = false := by
        rw [isJsonArray]
        cases hev : everyIsJsonValue xs
        · rfl
        · have := everyIsJsonValue_iff.mp hev x hx
          rw [hfalse] at this
          exact absurd this (by simp)
      rw [isJsonValue, h1]
      simp [rtIsUndefined, rtIsNull, isJsonPrimitive, rtIsString, rtIsNumber,
        rtIsBoolean, isJsonObject]
    | .obj es =>
      rw [containsFunc] at hcf
      obtain ⟨kv, hkv, hck⟩ := entriesContainsFunc_iff.mp hcf
      have hb1 := List.sizeOf_lt_of_mem hkv
      have hb2 : sizeOf (DynValue.obj es) = 1 + sizeOf es := by simp
      have hb3 : sizeOf kv.2 ≤ sizeOf kv := by
        obtain ⟨a, b⟩ := kv
        simp only [Prod.mk.sizeOf_spec]
        omega
      have hfalse : isJsonValue kv.2 = false := ih kv.2 (by omega) hck
      have h1 : isJsonObject (.obj es) = false := by
        rw [isJsonObject]
        cases hev : everyValueIsJsonValue es
        · rfl
        · have := everyValueIsJsonValue_iff.mp hev kv hkv
          rw [hfalse] at this
          exact absurd this (by simp)
      rw [isJsonValue, h1]
      simp [rtIsUndefined, rtIsNull, isJsonPrimitive, rtIsString, rtIsNumber,
        rtIsBoolean, isJsonArray]

theorem isJsonObject_false_of {v : DynValue} (h : isJsonValue v = false) :
    isJsonObject v = false := by
  cases hobj : isJsonObject v
  · rfl
  · rw [isJsonValue, hobj] at h
    simp at h

theorem isJsonArray_false_of {v : DynValue} (h : isJsonValue v = false) :
    isJsonArray v = false := by
  cases harr : isJsonArray v
  · rfl
  · rw [isJsonValue, harr] at h
    simp at h

theorem mem_toDynList {xs : List JsonValue} {y : DynValue} :
    y ∈ toDynList xs ↔ ∃ x ∈ xs, y = toDyn x := by
  induction xs with
  | nil =>
    rw [toDynList]
    simp
  | cons x rest ih =>
    rw [toDynList]
    simp only [List.mem_cons, ih]
    constructor
    · rintro (rfl | ⟨x2, hx2, rfl⟩)
      · exact ⟨x, Or.inl rfl, rfl⟩
      · exact ⟨x2, Or.inr hx2, rfl⟩
    · rintro ⟨x2, hx2 | hx2, rfl⟩
      · rw [hx2]
        exact Or.inl rfl
      · exact Or.inr ⟨x2, hx2, rfl⟩

theorem mem_toDynEntries {es : List (String × JsonValue)} {kv : String × DynValue} :
    kv ∈ toDynEntries es ↔ ∃ kv2 ∈ es, kv = (kv2.1, toDyn kv2.2) := by
  induction es with
  | nil =>
    rw [toDynEntries]
    simp
  | cons kv2 rest ih =>
    rw [toDynEntries]
    simp only [List.mem_cons, ih]
    constructor
    · rintro (rfl | ⟨kv3, hkv3, rfl⟩)
      · exact ⟨kv2, Or.inl rfl, rfl⟩
      · exact ⟨kv3, Or.inr hkv3, rfl⟩
    · rintro ⟨kv3, hkv3 | hkv3, rfl⟩
      · rw [hkv3]
        exact Or.inl rfl
      · exact Or.inr ⟨kv3, hkv3, rfl⟩

theorem isJsonValue_toDyn : ∀ (n : Nat) (v : JsonValue), sizeOf v ≤ n →
    isJsonValue (toDyn v) = true := by
  intro n
  induction n with
  | zero =>
    intro v hs
    exact absurd hs (by cases v <;> simp)
  | succ n ih =>
    intro v hs
    match v with
    | .str s =>
      rw [toDyn, isJsonValue]
      simp [isJsonPrimitive, rtIsString]
    | .num x =>
      rw [toDyn, isJsonValue]
      simp [isJsonPrimitive, rtIsString, rtIsNumber]
    | .bool b =>
      rw [toDyn, isJsonValue]
      simp [isJsonPrimitive, rtIsString, rtIsNumber, rtIsBoolean]
    | .null =>
      rw [toDyn, isJsonValue]
      simp [rtIsNull]
    | .undef =>
      rw [toDyn, isJsonValue]
      simp [rtIsUndefined]
    | .arr xs =>
      rw [toDyn]
      have harr : isJsonArray (.arr (toDynList xs)) = true := by
        rw [isJsonArray, everyIsJsonValue_iff]
        intro y hy
        obtain ⟨x, hx, rfl⟩ := mem_toDynList.mp hy
        have hb1 := List.sizeOf_lt_of_mem hx
        have hb2 : sizeOf (JsonValue.arr xs) = 1 + sizeOf xs := by simp
        exact ih x (by omega)
      rw [isJsonValue, harr]
      simp
    | .obj es =>
      rw [toDyn]
      have hobj : isJsonObject (.obj (toDynEntries es)) = true := by
        rw [isJsonObject, everyValueIsJsonValue_iff]
        intro kv hkv
        obtain ⟨kv2, hkv2, rfl⟩ := mem_toDynEntries.mp hkv
        have hb1 := List.sizeOf_lt_of_mem hkv2
        have hb2 : sizeOf (JsonValue.obj es) = 1 + sizeOf es := by simp
        have hb3 : sizeOf kv2.2 ≤ sizeOf kv2 := by
          obtain ⟨a, b⟩ := kv2
          simp only [Prod.mk.sizeOf_spec]
          omega
        exact ih kv2.2 (by omega)
      rw [isJsonValue, hobj]
      simp

/-! Variant-mismatch consequences of the top-level dispatch in `equals`. -/

theorem equals_arr_obj (xs : List JsonValue) (es : List (String × JsonValue))
    (e : Bool) : equals (.arr xs) (.obj es) e = false := by
  cases h : equals (.arr xs) (.obj es) e
  · rfl
  · rcases equals_inv h with hse | ⟨_, _, _, h2, _⟩ | ⟨_, _, h1, _, _⟩
    · simp [strictEq] at hse
    · exact absurd h2 (by simp)
    · exact absurd h1 (by simp)

theorem equals_obj_arr (es : List (String × JsonValue)) (xs : List JsonValue)
    (e : Bool) : equals (.obj es) (.arr xs) e = false := by
  cases h : equals (.obj es) (.arr xs) e
  · rfl
  · rcases equals_inv h with hse | ⟨_, _, h1, _, _⟩ | ⟨_, _, _, h2, _⟩
    · simp [strictEq] at hse
    · exact absurd h1 (by simp)
    · exact absurd h2 (by simp)

theorem equals_eq_strictEq_of_guards {a b : JsonValue} (e : Bool)
    (h1 : ¬(isArray a = true ∧ isArray b = true))
    (h2 : ¬(isObject a = true ∧ isObject b = true)) :
    equals a b e = strictEq a b := by
  cases hres : equals a b e
  · cases hse : strictEq a b
    · rfl
    · have hab := eq_of_strictEq hse
      subst hab
      have htrue := equals_self a e
      rw [hres] at htrue
      exact absurd htrue (by simp)
  · rcases equals_inv hres with hse | ⟨xs, ys, rfl, rfl, _⟩ | ⟨ea, eb, rfl, rfl, _⟩
    · exact hse.symm
    · exact absurd ⟨rfl, rfl⟩ h1
    · exact absurd ⟨rfl, rfl⟩ h2

/-! Claim theorems. Throughout, the spec's `treatAbsentAsMissing` mode is the
negation of the code's `exactOptionalProperties` parameter `e`, so a claim
quantified over the spec mode is stated by quantifying over `e`. -/

/-- Claim C1: for every valid `JsonValue` tree `v` (objects carry distinct
keys) and every mode, cloning with `exactOptionalProperties = e` produces a
tree that `equals` reports equal to the original under the same `e`. As `e`
ranges over both booleans this is exactly the spec's
`equals(value, clone(value, m), m)` guarantee for both consistent mode
choices. -/
theorem c1_equals_clone (v : JsonValue) (e : Bool) (h : wf v = true) :
    equals v (clone v e) e = true :=
  equals_clone_of_wf (sizeOf v) v e e le_rfl h (Or.inl rfl)

/-- Witness for C1 at the concrete tree `{a: 1, b: absent}` in both modes. -/
theorem c1_equals_clone_witness :
    wf (JsonValue.obj [("a", .num 1), ("b", .undef)]) = true ∧
      equals (JsonValue.obj [("a", .num 1), ("b", .undef)])
        (clone (JsonValue.obj [("a", .num 1), ("b", .undef)]) false) false = true ∧
      equals (JsonValue.obj [("a", .num 1), ("b", .undef)])
        (clone (JsonValue.obj [("a", .num 1), ("b", .undef)]) true) true = true :=
  ⟨by simp [wf, wfEntries, distinctKeys],
   c1_equals_clone _ false (by simp [wf, wfEntries, distinctKeys]),
   c1_equals_clone _ true (by simp [wf, wfEntries, distinctKeys])⟩

/-- Claim C2, evaluated at a failing input: the source's nested object
comparison `equals(valueA, valueB)` omits the mode, so with
`exactOptionalProperties = true` the nested objects `{x: absent}` and `{}`
are compared under the default mode and judged equal — the whole comparison
returns `true` — whereas the same two objects compared directly at the top
level under `exactOptionalProperties = true` are unequal. Under the claim's
"same mode m" recursion both comparisons would agree. -/
theorem c2_nested_mode_not_propagated :
    equals (.obj [("k", .obj [("x", .undef)])]) (.obj [("k", .obj [])]) true = true ∧
      equals (.obj [("x", .undef)]) (.obj []) true = false := by
  constructor
  · simp [equals, equalsObject, keysFilter, lookup, strictEq, isUndef]
  · simp [equals, equalsObject, keysFilter, lookup, strictEq, isUndef]

/-- Claim C3, evaluated at a failing input: with
`exactOptionalProperties = true`, the key `z` is mapped to the absent marker
in the left object and is not a key of the right object at all, yet `equals`
returns `true`, because the JavaScript read `b[key]` of the missing key also
yields `undefined` and the key-count check cannot tell `z` and `y` apart. -/
theorem c3_absent_key_matches_missing_key :
    equals (.obj [("x", .num 1), ("z", .undef)])
      (.obj [("x", .num 1), ("y", .undef)]) true = true := by
  simp [equals, equalsObject, keysFilter, lookup, strictEq, isUndef]

/-- Counterexample for Claim C4: `equals` is not symmetric in exact mode.
With `exactOptionalProperties = true`, `{x: absent}` versus `{y: 1}` yields
`true` (the left side's only key `x` reads as `undefined` on both sides),
while the swapped call yields `false` (`y` maps to `1` on the left and to
`undefined` on the right). -/
theorem c4_symmetry_counterexample :
    equals (.obj [("x", .undef)]) (.obj [("y", .num 1)]) true = true ∧
      equals (.obj [("y", .num 1)]) (.obj [("x", .undef)]) true = false := by
  constructor
  · simp [equals, equalsObject, keysFilter, lookup, strictEq, isUndef]
  · simp [equals, equalsObject, keysFilter, lookup, strictEq, isUndef]

/-- Claim C4 as amended: `equals` is reflexive in every mode, and it is
symmetric in the default mode (`exactOptionalProperties = false`) for valid
trees (objects carry distinct keys); in exact mode symmetry can fail, as the
counterexample shows. -/
theorem c4_reflexive_and_default_symmetric :
    (∀ (a : JsonValue) (e : Bool), equals a a e = true) ∧
      ∀ (a b : JsonValue), wf a = true → wf b = true →
        equals a b false = equals b a false :=
  ⟨equals_self, equals_symm_default⟩

/-- Witness for the amended C4 at concrete inputs. -/
theorem c4_reflexive_and_default_symmetric_witness :
    equals (.arr [.null]) (.arr [.null]) true = true ∧
      equals (.obj [("a", .num 1)]) (.obj []) false =
        equals (.obj []) (.obj [("a", .num 1)]) false :=
  ⟨c4_reflexive_and_default_symmetric.1 _ _,
   c4_reflexive_and_default_symmetric.2 _ _
     (by simp [wf, wfEntries, distinctKeys])
     (by simp [wf, wfEntries, distinctKeys])⟩

/-- Claim C5: `clone` rebuilds arrays by recursively cloning every element,
preserving order (it is exactly the elementwise map) and length; it rebuilds
objects by the source's filter-then-map pass over the entries, which drops
absent-marker entries when `exactOptionalProperties` (the spec's
`keepAbsentEntries`) is `false` and keeps them verbatim when it is `true`,
recursively cloning every non-absent value; and it returns primitives,
`null` and the absent marker unchanged. -/
theorem c5_clone_algorithm :
    (∀ (xs : List JsonValue) (e : Bool),
        clone (.arr xs) e = .arr (xs.map fun v => clone v e) ∧
          (xs.map fun v => clone v e).length = xs.length) ∧
      (∀ (es : List (String × JsonValue)) (e : Bool),
        clone (.obj es) e =
          .obj ((es.filter fun kv => e || !(isUndef kv.2)).map
            fun kv => if !(isUndef kv.2) then (kv.1, clone kv.2 e) else kv)) ∧
      (∀ e : Bool, clone .null e = .null ∧ clone .undef e = .undef) ∧
      (∀ (s : String) (x : Int) (b : Bool) (e : Bool),
        clone (.str s) e = .str s ∧ clone (.num x) e = .num x ∧
          clone (.bool b) e = .bool b) := by
  refine ⟨?_, ?_, ?_, ?_⟩
  · intro xs e
    exact ⟨by rw [clone_arr, cloneList_eq_map], by simp⟩
  · intro es e
    rw [clone_obj, cloneEntries_eq]
  · intro e
    exact ⟨by simp [clone], by simp [clone]⟩
  · intro s x b e
    exact ⟨by simp [clone], by simp [clone], by simp [clone]⟩

/-- Claim C6: on two arrays, `equals` returns `false` when the lengths
differ, and for equal lengths it returns `true` exactly when every
index-wise pair of elements is recursively equal under the same mode. -/
theorem c6_array_equality (xs ys : List JsonValue) (e : Bool) :
    (xs.length ≠ ys.length → equals (.arr xs) (.arr ys) e = false) ∧
      (xs.length = ys.length →
        (equals (.arr xs) (.arr ys) e = true ↔
          ∀ (i : Nat) (hx : i < xs.length) (hy : i < ys.length),
            equals (xs.get ⟨i, hx⟩) (ys.get ⟨i, hy⟩) e = true)) := by
  constructor
  · intro hne
    rw [equals_arr_arr, equalsArray]
    have hbeq : (xs.length == ys.length) = false := by
      simp [hne]
    rw [hbeq, Bool.false_and]
  · intro hlen
    rw [equals_arr_arr, equalsArray]
    have hbeq : (xs.length == ys.length) = true := by simp [hlen]
    rw [hbeq, Bool.true_and]
    constructor
    · exact fun h => equalsElems_to_pointwise h
    · exact fun h => equalsElems_pointwise hlen h

/-- Witness for C6: a length mismatch and an equal-length instance. -/
theorem c6_array_equality_witness :
    equals (.arr [.num 1]) (.arr []) false = false ∧
      (equals (.arr [.null]) (.arr [.null]) true = true ↔
        ∀ (i : Nat) (hx : i < [JsonValue.null].length)
          (hy : i < [JsonValue.null].length),
          equals ([JsonValue.null].get ⟨i, hx⟩)
            ([JsonValue.null].get ⟨i, hy⟩) true = true) :=
  ⟨(c6_array_equality [.num 1] [] false).1 (by simp),
   (c6_array_equality [.null] [.null] true).2 rfl⟩

/-- Claim C7: on a pair that is not two arrays and not two objects, `equals`
coincides with the strict-equality fast path: it returns `true` exactly for
identical primitive values (same variant and same value, including `null`
with `null` and the absent marker with itself) and `false` for every
mismatched pairing of variants; in particular an array never equals an
object, whatever their contents. -/
theorem c7_primitive_and_mismatch :
    (∀ (a b : JsonValue) (e : Bool),
        ¬(isArray a = true ∧ isArray b = true) →
        ¬(isObject a = true ∧ isObject b = true) →
        equals a b e = strictEq a b) ∧
      ∀ (xs : List JsonValue) (es : List (String × JsonValue)) (e : Bool),
        equals (.arr xs) (.obj es) e = false ∧
          equals (.obj es) (.arr xs) e = false :=
  ⟨fun _ _ e h1 h2 => equals_eq_strictEq_of_guards e h1 h2,
   fun xs es e => ⟨equals_arr_obj xs es e, equals_obj_arr es xs e⟩⟩

/-- Witness for C7: an identical primitive pair and an array-object pair. -/
theorem c7_primitive_and_mismatch_witness :
    equals (.num 3) (.num 3) true = strictEq (.num 3) (.num 3) ∧
      equals (.str "a") (.null) false = strictEq (.str "a") (.null) :=
  ⟨c7_primitive_and_mismatch.1 _ _ _ (by simp [isArray]) (by simp [isObject]),
   c7_primitive_and_mismatch.1 _ _ _ (by simp [isArray]) (by simp [isObject])⟩

/-- Claim C8: a dynamic value containing, at any depth, a member outside the
JSON variant set (a callable) is rejected by each validating guard:
`isJsonValue`, `isJsonObject` and `isJsonArray` all return `false`. The
guards are total functions, so they return rather than raising. -/
theorem c8_validating_guards_reject_callables (v : DynValue)
    (h : containsFunc v = true) :
    isJsonValue v = false ∧ isJsonObject v = false ∧ isJsonArray v = false := by
  have h1 := isJsonValue_false_of_containsFunc (sizeOf v) v le_rfl h
  exact ⟨h1, isJsonObject_false_of h1, isJsonArray_false_of h1⟩

/-- Witness for C8 at an array holding a callable. -/
theorem c8_validating_guards_reject_callables_witness :
    containsFunc (.arr [.func]) = true ∧
      isJsonValue (.arr [.func]) = false ∧
        isJsonObject (.arr [.func]) = false ∧
          isJsonArray (.arr [.func]) = false :=
  ⟨by simp [containsFunc, listContainsFunc],
   c8_validating_guards_reject_callables _
     (by simp [containsFunc, listContainsFunc])⟩

/-- Claim C9: the validating guard `isJsonValue` accepts the absent marker
(`undefined`) itself as a top-level value, and the `JsonValue` type admits
the absent marker as a root: every value of the model, the root `undef`
included, passes the validating guard. -/
theorem c9_absent_marker_is_json_value :
    isJsonValue DynValue.undef = true ∧
      ∀ v : JsonValue, isJsonValue (toDyn v) = true := by
  constructor
  · rw [isJsonValue]
    simp [rtIsUndefined]
  · intro v
    exact isJsonValue_toDyn (sizeOf v) v le_rfl

/-- Claim C10: `clone` never drops absent elements from arrays — an array
element that is the absent marker is preserved at its original index, and
the array length is preserved, in both modes of `exactOptionalProperties`
(the spec's `keepAbsentEntries`). -/
theorem c10_clone_preserves_absent_array_elements
    (xs : List JsonValue) (e : Bool) (i : Nat)
    (h : xs.get? i = some .undef) :
    clone (.arr xs) e = .arr (cloneList xs e) ∧
      (cloneList xs e).length = xs.length ∧
      (cloneList xs e).get? i = some .undef := by
  refine ⟨clone_arr xs e, cloneList_length xs e, ?_⟩
  rw [cloneList_eq_map, List.get?_map, h]
  simp [clone]

/-- Witness for C10 at `[1, absent]`, index 1, dropping mode. -/
theorem c10_clone_preserves_absent_array_elements_witness :
    ([JsonValue.num 1, .undef].get? 1 = some JsonValue.undef) ∧
      (clone (.arr [JsonValue.num 1, .undef]) false =
          .arr (cloneList [JsonValue.num 1, .undef] false) ∧
        (cloneList [JsonValue.num 1, .undef] false).length =
          [JsonValue.num 1, .undef].length ∧
        (cloneList [JsonValue.num 1, .undef] false).get? 1 =
          some JsonValue.undef) :=
  ⟨rfl, c10_clone_preserves_absent_array_elements _ false 1 rfl⟩

end JsonTyped
